import Mathlib

/-!
Verification of the word-cloud layout engine of this repository.

The engine lives in two module variants inside src/App.tsx, differing only in
numeric constants (canvas size, font range, padding, spiral steps, iteration
cap, retention cap).  The shallow embedding below models the shared algorithm
over the rationals, parametrized by a configuration record holding those
constants, and by the external collaborators the code uses:

  - measure : the canvas text-measurement facility, ctx.measureText, as a
    function from (text, font size) to a pixel width;
  - pick    : the pseudo-random palette draw used for colors,
    COLORS[Math.floor(Math.random() * COLORS.length)], as a stream of draws
    indexed by the order in which terms are mapped;
  - cosQ, sinQ : the trigonometric functions used by the spiral, kept
    abstract because no claim depends on their actual values (the spiral
    position at radius 0 is the canvas center for any cosQ and sinQ).

All other code is translated directly from src/App.tsx.
-/

namespace WordCloud

/-- Mirrors the WordFrequency record of src/types.ts: a term with its
occurrence count, the font size assigned later by the layout pass (0 until
then), and its palette color. -/
structure WordFrequency where
  text : String
  count : ℕ
  size : ℚ
  color : String
deriving DecidableEq, Repr

/-- Mirrors the internal PlacedWord interface of src/App.tsx: a word extended
with its measured width, derived height, and center position. -/
structure PlacedWord where
  text : String
  count : ℕ
  size : ℚ
  color : String
  width : ℚ
  height : ℚ
  x : ℚ
  y : ℚ
deriving DecidableEq, Repr

/-- The numeric constants of one variant of the generator module. -/
structure Config where
  width : ℚ
  height : ℚ
  maxFontSize : ℚ
  minFontSize : ℚ
  padding : ℚ
  angleStep : ℚ
  radiusStep : ℚ
  maxIterations : ℕ
  heightFactor : ℚ
  cap : ℕ
deriving DecidableEq, Repr

/-- The fixed palette COLORS of src/constants.ts. -/
def COLORS : List String :=
  ["#007947", "#F40000", "#005F37", "#D00000", "#004628", "#B30000"]

/-- One update of the frequency map: frequencyMap[k] = (frequencyMap[k] or 0) + 1,
on an association list kept in first-insertion order. -/
def bump : List (String × ℕ) → String → List (String × ℕ)
  | [], k => [(k, 1)]
  | (t, c) :: rest, k =>
      if t = k then (t, c + 1) :: rest else (t, c) :: bump rest k

/-- The JS String.prototype.trim call of processPhrases: strip whitespace
characters from both ends of the string, written over the character list so
that it evaluates by kernel reduction. -/
def jsTrim (s : String) : String :=
  ⟨((s.data.dropWhile Char.isWhitespace).reverse.dropWhile
      Char.isWhitespace).reverse⟩

/-- The counting loop of processPhrases in src/App.tsx: each entry is trimmed
and counted when nonempty, the whole line being one token (phrase mode). -/
def countEntries (entries : List String) : List (String × ℕ) :=
  entries.foldl
    (fun m e =>
      let cleanEntry := jsTrim e
      if cleanEntry.length > 0 then bump m cleanEntry else m)
    []

/-- The map step of processPhrases: each counted pair becomes a WordFrequency
with size 0 and a color drawn from the palette by the next pseudo-random draw;
the draw stream is indexed from start. -/
def attachColors (pick : ℕ → ℕ) : ℕ → List (String × ℕ) → List WordFrequency
  | _, [] => []
  | i, p :: ps =>
      { text := p.1, count := p.2, size := 0,
        color := COLORS.getD (pick i % COLORS.length) "#007947" }
        :: attachColors pick (i + 1) ps

/-- Stable insertion used to model Array.prototype.sort with the comparator
(a, b) => b.count - a.count: an element goes before the first element of
strictly smaller or equal count that arrived later, keeping ties in original
order. -/
def insertDesc (w : WordFrequency) : List WordFrequency → List WordFrequency
  | [] => [w]
  | x :: xs => if x.count ≤ w.count then w :: x :: xs else x :: insertDesc w xs

/-- Stable sort by descending count, as the JS sort comparator
(a, b) => b.count - a.count produces on a stable sort. -/
def sortByCountDesc (l : List WordFrequency) : List WordFrequency :=
  l.foldr insertDesc []

/-- processPhrases of src/App.tsx: count trimmed nonempty entries as whole
phrases, map to colored WordFrequency values, sort by descending count and
keep the first cap terms (slice(0, 120) in the phrase variant). -/
def processPhrases (pick : ℕ → ℕ) (cap : ℕ) (entries : List String) :
    List WordFrequency :=
  (sortByCountDesc (attachColors pick 0 (countEntries entries))).take cap

/-- The JS idiom (n or 1) applied to a count: 0 is falsy and becomes 1. -/
def orOne (n : ℕ) : ℕ := if n = 0 then 1 else n

/-- The scale of generateWordCloudBlob: 1 when all counts agree, otherwise
(count - minCount) / (maxCount - minCount). -/
def scaleOf (maxCount minCount c : ℕ) : ℚ :=
  if maxCount = minCount then 1
  else ((c : ℚ) - (minCount : ℚ)) / ((maxCount : ℚ) - (minCount : ℚ))

/-- The font size assignment word.size = Math.floor(minFontSize + scale *
(maxFontSize - minFontSize)). -/
def fontSizeOf (cfg : Config) (maxCount minCount c : ℕ) : ℚ :=
  ((⌊cfg.minFontSize + scaleOf maxCount minCount c *
      (cfg.maxFontSize - cfg.minFontSize)⌋ : ℤ) : ℚ)

/-- The overflow guard of generateWordCloudBlob: measure the text, and when
the width exceeds 95 percent of the canvas width, scale the font size down by
that ratio, floor it, and measure once more.  Returns the final size and
width. -/
def overflowAdjust (cfg : Config) (measure : String → ℚ → ℚ)
    (text : String) (size0 : ℚ) : ℚ × ℚ :=
  let width := measure text size0
  if width > cfg.width * (95 / 100) then
    let scaleFactor := cfg.width * (95 / 100) / width
    let size1 := ((⌊size0 * scaleFactor⌋ : ℤ) : ℚ)
    (size1, measure text size1)
  else
    (size0, width)

/-- The boundary check of the placement loop: the box centered at (x, y) with
the given width and height leaves the canvas. -/
def outOfBounds (cfg : Config) (width height x y : ℚ) : Bool :=
  decide (x - width / 2 < 0) || decide (x + width / 2 > cfg.width) ||
  decide (y - height / 2 < 0) || decide (y + height / 2 > cfg.height)

/-- intersect of src/App.tsx: the padded axis-aligned bounding boxes of the
two words are not strictly separated along either axis. -/
def intersect (padding : ℚ) (word otherWord : PlacedWord) : Bool :=
  !(decide (word.x + word.width / 2 + padding <
        otherWord.x - otherWord.width / 2 - padding) ||
    decide (word.x - word.width / 2 - padding >
        otherWord.x + otherWord.width / 2 + padding) ||
    decide (word.y + word.height / 2 + padding <
        otherWord.y - otherWord.height / 2 - padding) ||
    decide (word.y - word.height / 2 - padding >
        otherWord.y + otherWord.height / 2 + padding))

/-- The candidate position of spiral iteration k: angle and radius both start
at 0 and advance by their fixed steps once per iteration, so at iteration k
the angle is k * angleStep and the radius is k * radiusStep; the position is
center + radius * (cos angle, sin angle). -/
def posAt (cfg : Config) (cosQ sinQ : ℚ → ℚ) (k : ℕ) : ℚ × ℚ :=
  let angle := (k : ℚ) * cfg.angleStep
  let radius := (k : ℚ) * cfg.radiusStep
  (cfg.width / 2 + radius * cosQ angle, cfg.height / 2 + radius * sinQ angle)

/-- The word-collision scan of the placement loop: some already placed word
intersects the candidate. -/
def collideAny (padding : ℚ) (cand : PlacedWord) (placed : List PlacedWord) :
    Bool :=
  placed.any (fun other => intersect padding cand other)

/-- The spiral search loop of generateWordCloudBlob, from iteration k with the
given remaining iteration budget: at each step the candidate moves to the
spiral position; an out-of-bounds position aborts the whole search when the
radius already exceeds the larger canvas dimension and is otherwise skipped;
a position colliding with a placed word is skipped; the first remaining
position is returned. -/
def searchFrom (cfg : Config) (cosQ sinQ : ℚ → ℚ) (placed : List PlacedWord)
    (cand : PlacedWord) : ℕ → ℕ → Option (ℚ × ℚ)
  | 0, _ => none
  | fuel + 1, k =>
      let p := posAt cfg cosQ sinQ k
      if outOfBounds cfg cand.width cand.height p.1 p.2 then
        if (k : ℚ) * cfg.radiusStep > max cfg.width cfg.height then none
        else searchFrom cfg cosQ sinQ placed cand fuel (k + 1)
      else if collideAny cfg.padding { cand with x := p.1, y := p.2 } placed then
        searchFrom cfg cosQ sinQ placed cand fuel (k + 1)
      else
        some p

/-- The measured candidate built for one word before its spiral search: font
size from the frequency interpolation, then the overflow guard, width from
measurement, height = size * heightFactor, initially at the canvas center. -/
def candOf (cfg : Config) (measure : String → ℚ → ℚ)
    (maxCount minCount : ℕ) (w : WordFrequency) : PlacedWord :=
  let size0 := fontSizeOf cfg maxCount minCount w.count
  let sw := overflowAdjust cfg measure w.text size0
  { text := w.text, count := w.count, size := sw.1, color := w.color,
    width := sw.2, height := sw.1 * cfg.heightFactor,
    x := cfg.width / 2, y := cfg.height / 2 }

/-- One iteration of the words.forEach loop of generateWordCloudBlob: build
the measured candidate, run the spiral search against the placed set, and on
success append the candidate at the found position (the glyphs being painted
at the same moment); on failure the placed set is unchanged and the word is
skipped. -/
def placeWord (cfg : Config) (measure : String → ℚ → ℚ)
    (cosQ sinQ : ℚ → ℚ) (maxCount minCount : ℕ)
    (placed : List PlacedWord) (w : WordFrequency) : List PlacedWord :=
  let cand := candOf cfg measure maxCount minCount w
  match searchFrom cfg cosQ sinQ placed cand cfg.maxIterations 0 with
  | some p => placed ++ [{ cand with x := p.1, y := p.2 }]
  | none => placed

/-- generateWordCloudBlob of src/App.tsx, modeled up to rasterization: resolve
null (none) when no words survive aggregation, otherwise run the layout pass
and return the placed set, which together with the palette draws determines
the painted canvas.  maxCount and minCount are words[0].count and
words[words.length - 1].count with the JS (or 1) fallback. -/
def generateWordCloud (cfg : Config) (pick : ℕ → ℕ)
    (measure : String → ℚ → ℚ) (cosQ sinQ : ℚ → ℚ)
    (entries : List String) : Option (List PlacedWord) :=
  let words := processPhrases pick cfg.cap entries
  match words with
  | [] => none
  | w0 :: _ =>
      let maxCount := orOne w0.count
      let minCount := orOne (((words.getLast?).map WordFrequency.count).getD 0)
      some (words.foldl (placeWord cfg measure cosQ sinQ maxCount minCount) [])

/-- The constants of the phrase-mode generator variant of src/App.tsx
together with CANVAS_CONFIG of src/constants.ts. -/
def cfgPhrase : Config :=
  { width := 3200, height := 1800, maxFontSize := 550, minFontSize := 80,
    padding := 15, angleStep := 1 / 2, radiusStep := 20,
    maxIterations := 3000, heightFactor := 11 / 10, cap := 120 }

/-- The constants of the token-mode generator variant of src/App.tsx. -/
def cfgToken : Config :=
  { width := 3200, height := 1800, maxFontSize := 100, minFontSize := 16,
    padding := 4, angleStep := 1 / 2, radiusStep := 6,
    maxIterations := 1500, heightFactor := 17 / 20, cap := 100 }

/-- A point of the plane lies in the padded closed bounding box of a placed
word. -/
def inPaddedBox (padding : ℚ) (w : PlacedWord) (qx qy : ℚ) : Prop :=
  w.x - w.width / 2 - padding ≤ qx ∧ qx ≤ w.x + w.width / 2 + padding ∧
  w.y - w.height / 2 - padding ≤ qy ∧ qy ≤ w.y + w.height / 2 + padding

/-- Two placed words have disjoint padded closed bounding boxes: no point of
the plane lies in both. -/
def DisjointBoxes (padding : ℚ) (a b : PlacedWord) : Prop :=
  ∀ qx qy : ℚ, ¬(inPaddedBox padding a qx qy ∧ inPaddedBox padding b qx qy)

/-- The unpadded bounding box of a placed word lies inside the canvas
rectangle. -/
def inCanvas (cfg : Config) (w : PlacedWord) : Prop :=
  0 ≤ w.x - w.width / 2 ∧ w.x + w.width / 2 ≤ cfg.width ∧
  0 ≤ w.y - w.height / 2 ∧ w.y + w.height / 2 ≤ cfg.height

/-- The rejection test the code applies at spiral iteration k: the unpadded
box leaves the canvas at the candidate position, or the padded box intersects
the padded box of some placed word. -/
def rejectedAt (cfg : Config) (cosQ sinQ : ℚ → ℚ) (placed : List PlacedWord)
    (cand : PlacedWord) (k : ℕ) : Bool :=
  let p := posAt cfg cosQ sinQ k
  outOfBounds cfg cand.width cand.height p.1 p.2 ||
    collideAny cfg.padding { cand with x := p.1, y := p.2 } placed

/-- The give-up test of the search at spiral iteration k: out of bounds while
the radius already exceeds the larger canvas dimension. -/
def giveUpAt (cfg : Config) (cosQ sinQ : ℚ → ℚ) (cand : PlacedWord)
    (k : ℕ) : Bool :=
  outOfBounds cfg cand.width cand.height (posAt cfg cosQ sinQ k).1
      (posAt cfg cosQ sinQ k).2 &&
    decide ((k : ℚ) * cfg.radiusStep > max cfg.width cfg.height)

/-- Modelled from the spec: the boundary rejection condition as the spec words
it, with the padding applied to the box tested against the canvas edge, for
comparison with the outOfBounds test the code performs. -/
def specPaddedOutOfBounds (cfg : Config) (width height x y : ℚ) : Bool :=
  decide (x - width / 2 - cfg.padding < 0) ||
  decide (x + width / 2 + cfg.padding > cfg.width) ||
  decide (y - height / 2 - cfg.padding < 0) ||
  decide (y + height / 2 + cfg.padding > cfg.height)

/-- The layout-relevant fields of a placed word: everything except the
cosmetic color. -/
structure PlacedCore where
  text : String
  count : ℕ
  size : ℚ
  width : ℚ
  height : ℚ
  x : ℚ
  y : ℚ
deriving DecidableEq, Repr

/-- Forget the color of a placed word. -/
def placedCore (w : PlacedWord) : PlacedCore :=
  { text := w.text, count := w.count, size := w.size, width := w.width,
    height := w.height, x := w.x, y := w.y }

/-- The layout-relevant fields of an aggregated term: everything except the
cosmetic color. -/
structure WfCore where
  text : String
  count : ℕ
  size : ℚ
deriving DecidableEq, Repr

/-- Forget the color of an aggregated term. -/
def wfCore (w : WordFrequency) : WfCore :=
  { text := w.text, count := w.count, size := w.size }

/-- Two aggregated terms agree on everything except possibly the color. -/
def wfAgree (a b : WordFrequency) : Prop := wfCore a = wfCore b

/-- Two placed words agree on everything except possibly the color. -/
def pwAgree (a b : PlacedWord) : Prop := placedCore a = placedCore b

/-! ### Aggregator lemmas -/

/-- Counts in the frequency map stay at least 1 across a bump. -/
theorem bump_count_pos : ∀ (m : List (String × ℕ)) (k : String),
    (∀ p ∈ m, 1 ≤ p.2) → ∀ p ∈ bump m k, 1 ≤ p.2 := by
  intro m
  induction m with
  | nil =>
      intro k _ p hp
      simp only [bump, List.mem_singleton] at hp
      simp [hp]
  | cons hd tl ih =>
      intro k hm p hp
      obtain ⟨t, c⟩ := hd
      simp only [bump] at hp
      split at hp
      · rcases List.mem_cons.1 hp with h | h
        · simp [h]
        · exact hm p (List.mem_cons_of_mem _ h)
      · rcases List.mem_cons.1 hp with h | h
        · subst h
          exact hm (t, c) (List.mem_cons_self _ _)
        · exact ih k (fun q hq => hm q (List.mem_cons_of_mem _ hq)) p h

/-- Every count produced by the counting loop is at least 1. -/
theorem countEntries_count_pos (entries : List String) :
    ∀ p ∈ countEntries entries, 1 ≤ p.2 := by
  have main : ∀ (es : List String) (m : List (String × ℕ)),
      (∀ p ∈ m, 1 ≤ p.2) →
      ∀ p ∈ es.foldl
          (fun m e =>
            let cleanEntry := jsTrim e
            if cleanEntry.length > 0 then bump m cleanEntry else m) m,
        1 ≤ p.2 := by
    intro es
    induction es with
    | nil => intro m hm; simpa using hm
    | cons e es ih =>
        intro m hm
        rw [List.foldl_cons]
        apply ih
        dsimp only
        split
        · exact bump_count_pos m (jsTrim e) hm
        · exact hm
  intro p hp
  unfold countEntries at hp
  exact main entries [] (by simp) p hp

/-- Membership in the colored map step comes from the counted pairs, with a
zero initial size. -/
theorem mem_attachColors (pick : ℕ → ℕ) :
    ∀ (i : ℕ) (ps : List (String × ℕ)) (w : WordFrequency),
      w ∈ attachColors pick i ps →
      ∃ p ∈ ps, w.text = p.1 ∧ w.count = p.2 ∧ w.size = 0 := by
  intro i ps
  induction ps generalizing i with
  | nil => intro w hw; simp [attachColors] at hw
  | cons p ps ih =>
      intro w hw
      simp only [attachColors, List.mem_cons] at hw
      rcases hw with hw | hw
      · exact ⟨p, List.mem_cons_self _ _, by simp [hw]⟩
      · obtain ⟨q, hq, hprop⟩ := ih (i + 1) w hw
        exact ⟨q, List.mem_cons_of_mem _ hq, hprop⟩

/-- Membership through the stable insertion. -/
theorem mem_insertDesc (w : WordFrequency) :
    ∀ (l : List WordFrequency) (x : WordFrequency),
      x ∈ insertDesc w l ↔ x = w ∨ x ∈ l := by
  intro l
  induction l with
  | nil => intro x; simp [insertDesc]
  | cons y ys ih =>
      intro x
      simp only [insertDesc]
      split
      · simp [List.mem_cons]
      · simp only [List.mem_cons, ih]
        tauto

/-- Membership through the stable sort. -/
theorem mem_sortByCountDesc (l : List WordFrequency) (x : WordFrequency) :
    x ∈ sortByCountDesc l ↔ x ∈ l := by
  induction l with
  | nil => simp [sortByCountDesc]
  | cons y ys ih =>
      simp only [sortByCountDesc, List.foldr_cons] at *
      rw [mem_insertDesc]
      simp only [List.mem_cons, ih]

/-- The stable insertion preserves descending count order. -/
theorem sorted_insertDesc (w : WordFrequency) :
    ∀ (l : List WordFrequency),
      List.Pairwise (fun a b => b.count ≤ a.count) l →
      List.Pairwise (fun a b => b.count ≤ a.count) (insertDesc w l) := by
  intro l
  induction l with
  | nil => intro h; simp [insertDesc]
  | cons x xs ih =>
      intro hl
      rw [List.pairwise_cons] at hl
      obtain ⟨hx, hxs⟩ := hl
      simp only [insertDesc]
      split
      · rename_i hcount
        rw [List.pairwise_cons]
        refine ⟨?_, ?_⟩
        · intro a ha
          rcases List.mem_cons.1 ha with h | h
          · subst h; exact hcount
          · exact le_trans (hx a h) hcount
        · rw [List.pairwise_cons]
          exact ⟨hx, hxs⟩
      · rename_i hcount
        rw [List.pairwise_cons]
        refine ⟨?_, ih hxs⟩
        intro a ha
        rcases (mem_insertDesc w xs a).1 ha with h | h
        · subst h; omega
        · exact hx a h

/-- The sort produces a list in descending count order. -/
theorem sorted_sortByCountDesc (l : List WordFrequency) :
    List.Pairwise (fun a b => b.count ≤ a.count) (sortByCountDesc l) := by
  induction l with
  | nil => simp [sortByCountDesc]
  | cons x xs ih =>
      simp only [sortByCountDesc, List.foldr_cons] at *
      exact sorted_insertDesc x _ ih

/-- The aggregated term list is in descending count order. -/
theorem processPhrases_sorted (pick : ℕ → ℕ) (cap : ℕ) (entries : List String) :
    List.Pairwise (fun a b => b.count ≤ a.count)
      (processPhrases pick cap entries) :=
  List.Pairwise.sublist (List.take_sublist _ _) (sorted_sortByCountDesc _)

/-- Every aggregated term has count at least 1. -/
theorem processPhrases_count_pos (pick : ℕ → ℕ) (cap : ℕ)
    (entries : List String) :
    ∀ w ∈ processPhrases pick cap entries, 1 ≤ w.count := by
  intro w hw
  unfold processPhrases at hw
  have hw2 : w ∈ sortByCountDesc (attachColors pick 0 (countEntries entries)) :=
    List.mem_of_mem_take hw
  rw [mem_sortByCountDesc] at hw2
  obtain ⟨p, hp, _, hc, _⟩ := mem_attachColors pick 0 _ w hw2
  rw [hc]
  exact countEntries_count_pos entries p hp

/-- The element named by getLast? belongs to the list. -/
theorem mem_of_getLast?_eq {α : Type} {l : List α} {y : α}
    (hy : l.getLast? = some y) : y ∈ l := by
  cases l with
  | nil => simp at hy
  | cons a t =>
      have hne : a :: t ≠ [] := by simp
      rw [List.getLast?_eq_getLast _ hne] at hy
      have hmem := List.getLast_mem hne
      injection hy with h
      rwa [h] at hmem

/-- In a descending list the last element has the least count. -/
theorem sorted_getLast?_min :
    ∀ (l : List WordFrequency),
      List.Pairwise (fun a b => b.count ≤ a.count) l →
      ∀ y, l.getLast? = some y → ∀ x ∈ l, y.count ≤ x.count := by
  intro l
  induction l with
  | nil => intro _ y hy; simp at hy
  | cons a t ih =>
      intro hs y hy x hx
      rw [List.pairwise_cons] at hs
      obtain ⟨ha, ht⟩ := hs
      cases t with
      | nil =>
          simp only [List.getLast?_singleton, Option.some.injEq] at hy
          subst hy
          rcases List.mem_singleton.1 hx with h
          subst h
          exact le_refl _
      | cons b m =>
          rw [List.getLast?_cons_cons] at hy
          rcases List.mem_cons.1 hx with h | h
          · subst h
            exact ha y (mem_of_getLast?_eq hy)
          · exact ih ht y hy x h

/-! ### Placement loop lemmas -/

/-- Reading the boundary check: it fails exactly when the unpadded box lies
inside the canvas. -/
theorem outOfBounds_false_iff {cfg : Config} {width height x y : ℚ} :
    outOfBounds cfg width height x y = false ↔
      0 ≤ x - width / 2 ∧ x + width / 2 ≤ cfg.width ∧
      0 ≤ y - height / 2 ∧ y + height / 2 ≤ cfg.height := by
  simp only [outOfBounds, Bool.or_eq_false_iff, decide_eq_false_iff_not,
    not_lt, gt_iff_lt]
  tauto

/-- A successful spiral search returns a position that passes both the
boundary check and the collision scan. -/
theorem searchFrom_sound (cfg : Config) (cosQ sinQ : ℚ → ℚ)
    (placed : List PlacedWord) (cand : PlacedWord) :
    ∀ (fuel k : ℕ) (p : ℚ × ℚ),
      searchFrom cfg cosQ sinQ placed cand fuel k = some p →
      outOfBounds cfg cand.width cand.height p.1 p.2 = false ∧
      collideAny cfg.padding { cand with x := p.1, y := p.2 } placed = false := by
  intro fuel
  induction fuel with
  | zero => intro k p h; simp [searchFrom] at h
  | succ n ih =>
      intro k p h
      simp only [searchFrom] at h
      split at h
      · split at h
        · exact absurd h (by simp)
        · exact ih _ _ h
      · split at h
        · exact ih _ _ h
        · rename_i h1 h2
          injection h with hp
          subst hp
          constructor
          · simpa using h1
          · simpa using h2

/-- A failed intersection test yields geometrically disjoint padded boxes. -/
theorem disjoint_of_intersect_eq_false {padding : ℚ} {a b : PlacedWord}
    (h : intersect padding a b = false) : DisjointBoxes padding a b := by
  simp only [intersect, Bool.not_eq_false', Bool.or_eq_true,
    decide_eq_true_eq] at h
  intro qx qy hq
  simp only [inPaddedBox] at hq
  obtain ⟨⟨ha1, ha2, ha3, ha4⟩, hb1, hb2, hb3, hb4⟩ := hq
  rcases h with ((h | h) | h) | h <;> linarith

/-- Padded-box disjointness is symmetric. -/
theorem disjointBoxes_symm {padding : ℚ} {a b : PlacedWord}
    (h : DisjointBoxes padding a b) : DisjointBoxes padding b a :=
  fun qx qy hq => h qx qy ⟨hq.2, hq.1⟩

/-- Reading the collision scan: it fails exactly when the candidate intersects
no placed word. -/
theorem collideAny_eq_false_iff {padding : ℚ} {cand : PlacedWord}
    {placed : List PlacedWord} :
    collideAny padding cand placed = false ↔
      ∀ o ∈ placed, intersect padding cand o = false := by
  simp [collideAny, List.any_eq_false]

/-- A candidate accepted by the boundary check lies inside the canvas. -/
theorem inCanvas_mk {cfg : Config} {cand : PlacedWord} {x y : ℚ}
    (h : outOfBounds cfg cand.width cand.height x y = false) :
    inCanvas cfg { cand with x := x, y := y } := by
  have hprop := outOfBounds_false_iff.1 h
  simpa [inCanvas] using hprop

/-- One step of the forEach loop either leaves the placed set unchanged after
a failed search, or appends the candidate at the found position. -/
theorem placeWord_eq (cfg : Config) (measure : String → ℚ → ℚ)
    (cosQ sinQ : ℚ → ℚ) (maxCount minCount : ℕ)
    (placed : List PlacedWord) (w : WordFrequency) :
    (placeWord cfg measure cosQ sinQ maxCount minCount placed w = placed ∧
      searchFrom cfg cosQ sinQ placed (candOf cfg measure maxCount minCount w)
        cfg.maxIterations 0 = none) ∨
    ∃ p : ℚ × ℚ,
      searchFrom cfg cosQ sinQ placed (candOf cfg measure maxCount minCount w)
        cfg.maxIterations 0 = some p ∧
      placeWord cfg measure cosQ sinQ maxCount minCount placed w =
        placed ++ [{ candOf cfg measure maxCount minCount w with
          x := p.1, y := p.2 }] := by
  rcases hs : searchFrom cfg cosQ sinQ placed
      (candOf cfg measure maxCount minCount w) cfg.maxIterations 0 with _ | p
  · left
    refine ⟨?_, rfl⟩
    simp only [placeWord, hs]
  · right
    refine ⟨p, rfl, ?_⟩
    simp only [placeWord, hs]

/-- The layout invariant: starting from a placed set whose members all lie in
the canvas and are pairwise disjoint, the whole forEach pass preserves both
properties. -/
theorem foldl_placeWord_inv (cfg : Config) (measure : String → ℚ → ℚ)
    (cosQ sinQ : ℚ → ℚ) (maxCount minCount : ℕ) :
    ∀ (ws : List WordFrequency) (placed : List PlacedWord),
      (∀ w ∈ placed, inCanvas cfg w) →
      List.Pairwise (DisjointBoxes cfg.padding) placed →
      (∀ w ∈ ws.foldl (placeWord cfg measure cosQ sinQ maxCount minCount) placed,
          inCanvas cfg w) ∧
      List.Pairwise (DisjointBoxes cfg.padding)
        (ws.foldl (placeWord cfg measure cosQ sinQ maxCount minCount) placed) := by
  intro ws
  induction ws with
  | nil => intro placed h1 h2; exact ⟨by simpa using h1, by simpa using h2⟩
  | cons w ws ih =>
      intro placed h1 h2
      rw [List.foldl_cons]
      rcases placeWord_eq cfg measure cosQ sinQ maxCount minCount placed w with
        ⟨he, _⟩ | ⟨p, hs, he⟩
      · rw [he]
        exact ih placed h1 h2
      · rw [he]
        have hsound := searchFrom_sound cfg cosQ sinQ placed _ _ _ _ hs
        have hdisj : ∀ o ∈ placed,
            DisjointBoxes cfg.padding o
              { candOf cfg measure maxCount minCount w with x := p.1, y := p.2 } := by
          intro o ho
          exact disjointBoxes_symm
            (disjoint_of_intersect_eq_false
              (collideAny_eq_false_iff.1 hsound.2 o ho))
        apply ih
        · intro x hx
          rcases List.mem_append.1 hx with hx | hx
          · exact h1 x hx
          · rw [List.mem_singleton] at hx
            subst hx
            exact inCanvas_mk hsound.1
        · rw [List.pairwise_append]
          refine ⟨h2, by simp, ?_⟩
          intro a ha b hb
          rw [List.mem_singleton] at hb
          subst hb
          exact hdisj a ha

/-- Every member of the final placed set either was already placed or is the
measured candidate of some processed word, moved to the found position. -/
theorem mem_foldl_placeWord (cfg : Config) (measure : String → ℚ → ℚ)
    (cosQ sinQ : ℚ → ℚ) (maxCount minCount : ℕ) :
    ∀ (ws : List WordFrequency) (placed : List PlacedWord) (q : PlacedWord),
      q ∈ ws.foldl (placeWord cfg measure cosQ sinQ maxCount minCount) placed →
      q ∈ placed ∨ ∃ w ∈ ws, ∃ p : ℚ × ℚ,
        q = { candOf cfg measure maxCount minCount w with x := p.1, y := p.2 } := by
  intro ws
  induction ws with
  | nil => intro placed q h; left; simpa using h
  | cons w ws ih =>
      intro placed q h
      rw [List.foldl_cons] at h
      rcases ih _ q h with hq | ⟨v, hv, p, hp⟩
      · rcases placeWord_eq cfg measure cosQ sinQ maxCount minCount placed w with
          ⟨he, _⟩ | ⟨p, _, he⟩
        · rw [he] at hq
          left; exact hq
        · rw [he] at hq
          rcases List.mem_append.1 hq with hq | hq
          · left; exact hq
          · rw [List.mem_singleton] at hq
            right
            exact ⟨w, List.mem_cons_self _ _, p, hq⟩
      · right
        exact ⟨v, List.mem_cons_of_mem _ hv, p, hp⟩

/-- Reading a successful generation: the aggregated list is nonempty and the
result is the layout fold over it with the head and last counts. -/
theorem generate_some (cfg : Config) (pick : ℕ → ℕ)
    (measure : String → ℚ → ℚ) (cosQ sinQ : ℚ → ℚ) (entries : List String)
    (placed : List PlacedWord)
    (h : generateWordCloud cfg pick measure cosQ sinQ entries = some placed) :
    ∃ w0 rest, processPhrases pick cfg.cap entries = w0 :: rest ∧
      placed = (w0 :: rest).foldl
        (placeWord cfg measure cosQ sinQ (orOne w0.count)
          (orOne (((w0 :: rest).getLast?.map WordFrequency.count).getD 0))) [] := by
  simp only [generateWordCloud] at h
  rcases hw : processPhrases pick cfg.cap entries with _ | ⟨w0, rest⟩
  · rw [hw] at h
    simp at h
  · rw [hw] at h
    simp only [Option.some.injEq] at h
    exact ⟨w0, rest, rfl, h.symm⟩

/-! ### Claim theorems -/

/-- Claim C1: no-overlap invariant. For every pair of distinct terms appended
to the placed set during one layout pass of generateWordCloudBlob, their
padded axis-aligned bounding boxes, center plus or minus half width and half
height expanded by the fixed padding on both boxes, do not intersect: no
point of the plane lies in both padded boxes. -/
theorem no_overlap_invariant (cfg : Config) (pick : ℕ → ℕ)
    (measure : String → ℚ → ℚ) (cosQ sinQ : ℚ → ℚ) (entries : List String)
    (placed : List PlacedWord)
    (h : generateWordCloud cfg pick measure cosQ sinQ entries = some placed) :
    List.Pairwise (DisjointBoxes cfg.padding) placed := by
  obtain ⟨w0, rest, _, hp⟩ :=
    generate_some cfg pick measure cosQ sinQ entries placed h
  subst hp
  exact (foldl_placeWord_inv cfg measure cosQ sinQ _ _ _ [] (by simp)
    (by simp)).2

attribute [local semireducible] Rat.add Rat.mul Rat.inv Rat.sub in
/-- Witness for C1 at a concrete run of the phrase-mode generator. -/
theorem no_overlap_invariant_witness :
    List.Pairwise (DisjointBoxes cfgPhrase.padding)
      [⟨"a", 2, 550, "#007947", 10, 605, 1600, 900⟩,
       ⟨"b", 1, 80, "#007947", 10, 88, 1660, 900⟩] :=
  no_overlap_invariant cfgPhrase (fun _ => 0) (fun _ _ => 10) (fun _ => 1)
    (fun _ => 0) ["a", "a", "b"] _ (by decide)

/-- Claim C2: boundary invariant. Every term appended to the placed set by
generateWordCloudBlob has its bounding box, center plus or minus half the
measured width and half the derived height, lying entirely within the
rectangle from 0 to canvasWidth and from 0 to canvasHeight. -/
theorem boundary_invariant (cfg : Config) (pick : ℕ → ℕ)
    (measure : String → ℚ → ℚ) (cosQ sinQ : ℚ → ℚ) (entries : List String)
    (placed : List PlacedWord)
    (h : generateWordCloud cfg pick measure cosQ sinQ entries = some placed) :
    ∀ w ∈ placed, inCanvas cfg w := by
  obtain ⟨w0, rest, _, hp⟩ :=
    generate_some cfg pick measure cosQ sinQ entries placed h
  subst hp
  exact (foldl_placeWord_inv cfg measure cosQ sinQ _ _ _ [] (by simp)
    (by simp)).1

attribute [local semireducible] Rat.add Rat.mul Rat.inv Rat.sub in
/-- Witness for C2 at a concrete run of the phrase-mode generator. -/
theorem boundary_invariant_witness :
    inCanvas cfgPhrase ⟨"a", 2, 550, "#007947", 10, 605, 1600, 900⟩ ∧
    inCanvas cfgPhrase ⟨"b", 1, 80, "#007947", 10, 88, 1660, 900⟩ :=
  ⟨boundary_invariant cfgPhrase (fun _ => 0) (fun _ _ => 10) (fun _ => 1)
      (fun _ => 0) ["a", "a", "b"]
      [⟨"a", 2, 550, "#007947", 10, 605, 1600, 900⟩,
       ⟨"b", 1, 80, "#007947", 10, 88, 1660, 900⟩] (by decide) _ (by decide),
    boundary_invariant cfgPhrase (fun _ => 0) (fun _ _ => 10) (fun _ => 1)
      (fun _ => 0) ["a", "a", "b"]
      [⟨"a", 2, 550, "#007947", 10, 605, 1600, 900⟩,
       ⟨"b", 1, 80, "#007947", 10, 88, 1660, 900⟩] (by decide) _ (by decide)⟩

/-- Claim C5: per-term exhaustion recovery. When the spiral search for a term
finds no valid position within the iteration budget the placed set is left
unchanged, so the term is neither placed nor painted; an out-of-bounds
position whose radius already exceeds the larger canvas dimension aborts the
search with the same skip outcome; and whenever aggregation yields any terms
at all the call still completes and returns the image of the placed terms
rather than failing. -/
theorem per_term_exhaustion (cfg : Config) (pick : ℕ → ℕ)
    (measure : String → ℚ → ℚ) (cosQ sinQ : ℚ → ℚ) :
    (∀ (placed : List PlacedWord) (maxCount minCount : ℕ) (w : WordFrequency),
        searchFrom cfg cosQ sinQ placed (candOf cfg measure maxCount minCount w)
            cfg.maxIterations 0 = none →
        placeWord cfg measure cosQ sinQ maxCount minCount placed w = placed) ∧
    (∀ (placed : List PlacedWord) (cand : PlacedWord) (fuel k : ℕ),
        outOfBounds cfg cand.width cand.height (posAt cfg cosQ sinQ k).1
            (posAt cfg cosQ sinQ k).2 = true →
        (k : ℚ) * cfg.radiusStep > max cfg.width cfg.height →
        searchFrom cfg cosQ sinQ placed cand (fuel + 1) k = none) ∧
    (∀ entries : List String, processPhrases pick cfg.cap entries ≠ [] →
        ∃ L, generateWordCloud cfg pick measure cosQ sinQ entries = some L) := by
  refine ⟨?_, ?_, ?_⟩
  · intro placed maxCount minCount w hs
    simp only [placeWord, hs]
  · intro placed cand fuel k h1 h2
    simp only [searchFrom, h1, if_true]
    rw [if_pos h2]
  · intro entries hne
    rcases hw : processPhrases pick cfg.cap entries with _ | ⟨w0, rest⟩
    · exact absurd hw hne
    · refine ⟨(w0 :: rest).foldl
        (placeWord cfg measure cosQ sinQ (orOne w0.count)
          (orOne (((w0 :: rest).getLast?.map WordFrequency.count).getD 0))) [], ?_⟩
      simp only [generateWordCloud]
      rw [hw]

attribute [local semireducible] Rat.add Rat.mul Rat.inv Rat.sub in
/-- Witness for C5: a term too wide for a small canvas is skipped after the
radius bound triggers, and generation on a nonempty term set yields an
image. -/
theorem per_term_exhaustion_witness :
    (searchFrom ⟨10, 10, 5, 5, 1, 1 / 2, 20, 2, 1, 10⟩ (fun _ => 1) (fun _ => 0)
        []
        (candOf ⟨10, 10, 5, 5, 1, 1 / 2, 20, 2, 1, 10⟩ (fun _ _ => 20) 1 1
          ⟨"aaaa", 1, 0, "#007947"⟩)
        (Config.maxIterations ⟨10, 10, 5, 5, 1, 1 / 2, 20, 2, 1, 10⟩) 0 = none ∧
      placeWord ⟨10, 10, 5, 5, 1, 1 / 2, 20, 2, 1, 10⟩ (fun _ _ => 20)
        (fun _ => 1) (fun _ => 0) 1 1 [] ⟨"aaaa", 1, 0, "#007947"⟩ = []) ∧
    (∃ L, generateWordCloud cfgPhrase (fun _ => 0) (fun _ _ => 10) (fun _ => 1)
        (fun _ => 0) ["a"] = some L) := by
  have hmain := per_term_exhaustion ⟨10, 10, 5, 5, 1, 1 / 2, 20, 2, 1, 10⟩
    (fun _ => 0) (fun _ _ => 20) (fun _ => 1) (fun _ => 0)
  have hs : searchFrom ⟨10, 10, 5, 5, 1, 1 / 2, 20, 2, 1, 10⟩ (fun _ => 1)
      (fun _ => 0) []
      (candOf ⟨10, 10, 5, 5, 1, 1 / 2, 20, 2, 1, 10⟩ (fun _ _ => 20) 1 1
        ⟨"aaaa", 1, 0, "#007947"⟩)
      (Config.maxIterations ⟨10, 10, 5, 5, 1, 1 / 2, 20, 2, 1, 10⟩) 0 = none := by
    decide
  refine ⟨⟨hs, hmain.1 [] 1 1 ⟨"aaaa", 1, 0, "#007947"⟩ hs⟩, ?_⟩
  exact (per_term_exhaustion cfgPhrase (fun _ => 0) (fun _ _ => 10) (fun _ => 1)
    (fun _ => 0)).2.2 ["a"] (by decide)

/-- Claim C6: empty-input behaviour. Aggregating entries that are all empty
or whitespace-only yields an empty term set, and generation on such input
resolves with the nothing-to-render signal none instead of producing a
raster or throwing. -/
theorem empty_input_behaviour (cfg : Config) (pick : ℕ → ℕ)
    (measure : String → ℚ → ℚ) (cosQ sinQ : ℚ → ℚ) (entries : List String)
    (h : ∀ e ∈ entries, jsTrim e = "") :
    processPhrases pick cfg.cap entries = [] ∧
    generateWordCloud cfg pick measure cosQ sinQ entries = none := by
  have hc : countEntries entries = [] := by
    unfold countEntries
    have main : ∀ es : List String, (∀ e ∈ es, jsTrim e = "") →
        ∀ m : List (String × ℕ),
          es.foldl
            (fun m e =>
              let cleanEntry := jsTrim e
              if cleanEntry.length > 0 then bump m cleanEntry else m) m = m := by
      intro es
      induction es with
      | nil => intro _ m; rfl
      | cons e es ih =>
          intro he m
          rw [List.foldl_cons]
          have htrim : jsTrim e = "" := he e (List.mem_cons_self _ _)
          have hstep :
              (let cleanEntry := jsTrim e
                if cleanEntry.length > 0 then bump m cleanEntry else m) = m := by
            simp [htrim]
          rw [hstep]
          exact ih (fun x hx => he x (List.mem_cons_of_mem _ hx)) m
    exact main entries h []
  have hp : processPhrases pick cfg.cap entries = [] := by
    unfold processPhrases
    rw [hc]
    simp [attachColors, sortByCountDesc]
  refine ⟨hp, ?_⟩
  simp only [generateWordCloud]
  rw [hp]

/-- Witness for C6 on one empty and one whitespace-only entry. -/
theorem empty_input_behaviour_witness :
    processPhrases (fun _ => 0) cfgPhrase.cap ["", "   "] = [] ∧
    generateWordCloud cfgPhrase (fun _ => 0) (fun _ _ => 10) (fun _ => 1)
      (fun _ => 0) ["", "   "] = none :=
  empty_input_behaviour cfgPhrase (fun _ => 0) (fun _ _ => 10) (fun _ => 1)
    (fun _ => 0) ["", "   "] (by decide)

/-- Claim C4: font size mapping. For a nonempty aggregated term list the
reference counts taken from the head and the last element are the maximum and
minimum counts of the set, every font size is the floored linear
interpolation between the configured minimum and maximum font sizes keyed by
(count - minCount) / (maxCount - minCount), and when every term shares the
same count the scale is 1 and every term receives the maximum font size, the
degenerate branch avoiding the division. -/
theorem font_size_mapping (cfg : Config) (pick : ℕ → ℕ) (entries : List String)
    (w0 : WordFrequency) (rest : List WordFrequency) (maxCount minCount : ℕ)
    (hmaxInt : ((⌊cfg.maxFontSize⌋ : ℤ) : ℚ) = cfg.maxFontSize)
    (hwords : processPhrases pick cfg.cap entries = w0 :: rest)
    (hmaxC : maxCount = orOne w0.count)
    (hminC : minCount =
      orOne (((w0 :: rest).getLast?.map WordFrequency.count).getD 0)) :
    (maxCount = w0.count ∧ ∃ v ∈ w0 :: rest, minCount = v.count) ∧
    (∀ w ∈ w0 :: rest, minCount ≤ w.count ∧ w.count ≤ maxCount) ∧
    (∀ w ∈ w0 :: rest,
        fontSizeOf cfg maxCount minCount w.count =
          ((⌊cfg.minFontSize + scaleOf maxCount minCount w.count *
              (cfg.maxFontSize - cfg.minFontSize)⌋ : ℤ) : ℚ)) ∧
    ((∀ w ∈ w0 :: rest, w.count = w0.count) →
        ∀ w ∈ w0 :: rest,
          fontSizeOf cfg maxCount minCount w.count = cfg.maxFontSize) := by
  have hcp : ∀ w ∈ w0 :: rest, 1 ≤ w.count := by
    rw [← hwords]
    exact processPhrases_count_pos pick cfg.cap entries
  have hs : List.Pairwise (fun a b => b.count ≤ a.count) (w0 :: rest) := by
    rw [← hwords]
    exact processPhrases_sorted pick cfg.cap entries
  have hne : w0 :: rest ≠ [] := by simp
  have hy : (w0 :: rest).getLast? = some ((w0 :: rest).getLast hne) :=
    List.getLast?_eq_getLast _ hne
  have hymem : (w0 :: rest).getLast hne ∈ w0 :: rest := List.getLast_mem hne
  have hminC2 : minCount = ((w0 :: rest).getLast hne).count := by
    rw [hminC, hy]
    have h1 : 1 ≤ ((w0 :: rest).getLast hne).count := hcp _ hymem
    have h0 : ((w0 :: rest).getLast hne).count ≠ 0 := by omega
    simp [orOne, h0]
  have hmaxC2 : maxCount = w0.count := by
    have h1 : 1 ≤ w0.count := hcp w0 (List.mem_cons_self _ _)
    have h0 : w0.count ≠ 0 := by omega
    rw [hmaxC]
    simp [orOne, h0]
  have hmin_le : ∀ w ∈ w0 :: rest, minCount ≤ w.count := by
    intro w hw
    rw [hminC2]
    exact sorted_getLast?_min (w0 :: rest) hs _ hy w hw
  have hle_max : ∀ w ∈ w0 :: rest, w.count ≤ maxCount := by
    intro w hw
    rw [hmaxC2]
    rcases List.mem_cons.1 hw with h | h
    · subst h; exact le_refl _
    · exact (List.pairwise_cons.1 hs).1 w h
  refine ⟨⟨hmaxC2, (w0 :: rest).getLast hne, hymem, hminC2⟩, ?_, ?_, ?_⟩
  · intro w hw
    exact ⟨hmin_le w hw, hle_max w hw⟩
  · intro w _
    rfl
  · intro hall w hw
    have heq : maxCount = minCount := by
      rw [hmaxC2, hminC2]
      exact (hall _ hymem).symm
    unfold fontSizeOf scaleOf
    rw [if_pos heq]
    rw [show cfg.minFontSize + 1 * (cfg.maxFontSize - cfg.minFontSize)
        = cfg.maxFontSize by ring]
    exact hmaxInt

attribute [local semireducible] Rat.add Rat.mul Rat.inv Rat.sub in
/-- Witness for C4 on the aggregated list of a concrete phrase-mode run. -/
theorem font_size_mapping_witness :
    (2 = (⟨"a", 2, 0, "#007947"⟩ : WordFrequency).count ∧
      ∃ v ∈ [(⟨"a", 2, 0, "#007947"⟩ : WordFrequency), ⟨"b", 1, 0, "#007947"⟩],
        1 = v.count) ∧
    (∀ w ∈ [(⟨"a", 2, 0, "#007947"⟩ : WordFrequency), ⟨"b", 1, 0, "#007947"⟩],
        1 ≤ w.count ∧ w.count ≤ 2) ∧
    (∀ w ∈ [(⟨"a", 2, 0, "#007947"⟩ : WordFrequency), ⟨"b", 1, 0, "#007947"⟩],
        fontSizeOf cfgPhrase 2 1 w.count =
          ((⌊cfgPhrase.minFontSize + scaleOf 2 1 w.count *
              (cfgPhrase.maxFontSize - cfgPhrase.minFontSize)⌋ : ℤ) : ℚ)) ∧
    ((∀ w ∈ [(⟨"a", 2, 0, "#007947"⟩ : WordFrequency), ⟨"b", 1, 0, "#007947"⟩],
        w.count = (⟨"a", 2, 0, "#007947"⟩ : WordFrequency).count) →
      ∀ w ∈ [(⟨"a", 2, 0, "#007947"⟩ : WordFrequency), ⟨"b", 1, 0, "#007947"⟩],
        fontSizeOf cfgPhrase 2 1 w.count = cfgPhrase.maxFontSize) :=
  font_size_mapping cfgPhrase (fun _ => 0) ["a", "a", "b"]
    ⟨"a", 2, 0, "#007947"⟩ [⟨"b", 1, 0, "#007947"⟩] 2 1
    (by decide) (by decide) (by decide) (by decide)

/-- Claim C7: overflow guard. For a term whose measured width at its
interpolated font size exceeds 95 percent of the canvas width, the candidate
built for placement carries a font size that is strictly smaller than the raw
interpolation, equal to the floored proportional shrink, and its width is the
result of measuring the text once more at that shrunken size. -/
theorem overflow_guard (cfg : Config) (measure : String → ℚ → ℚ)
    (maxCount minCount : ℕ) (w : WordFrequency)
    (hW : 0 < cfg.width)
    (hpos : 0 < fontSizeOf cfg maxCount minCount w.count)
    (hover : cfg.width * (95 / 100) <
      measure w.text (fontSizeOf cfg maxCount minCount w.count)) :
    (candOf cfg measure maxCount minCount w).size <
        fontSizeOf cfg maxCount minCount w.count ∧
    (candOf cfg measure maxCount minCount w).size =
      ((⌊fontSizeOf cfg maxCount minCount w.count *
          (cfg.width * (95 / 100) /
            measure w.text (fontSizeOf cfg maxCount minCount w.count))⌋ : ℤ) : ℚ) ∧
    (candOf cfg measure maxCount minCount w).width =
      measure w.text ((candOf cfg measure maxCount minCount w).size) := by
  have hcond : measure w.text (fontSizeOf cfg maxCount minCount w.count) >
      cfg.width * (95 / 100) := hover
  have hsize : (candOf cfg measure maxCount minCount w).size =
      ((⌊fontSizeOf cfg maxCount minCount w.count *
          (cfg.width * (95 / 100) /
            measure w.text (fontSizeOf cfg maxCount minCount w.count))⌋ : ℤ) : ℚ) := by
    simp only [candOf, overflowAdjust]
    rw [if_pos hcond]
  have hwidth : (candOf cfg measure maxCount minCount w).width =
      measure w.text ((candOf cfg measure maxCount minCount w).size) := by
    rw [hsize]
    simp only [candOf, overflowAdjust]
    rw [if_pos hcond]
  have hm0 : 0 < measure w.text (fontSizeOf cfg maxCount minCount w.count) :=
    lt_trans (mul_pos hW (by norm_num)) hover
  have hsf : cfg.width * (95 / 100) /
      measure w.text (fontSizeOf cfg maxCount minCount w.count) < 1 :=
    (div_lt_one hm0).2 hover
  have hx : fontSizeOf cfg maxCount minCount w.count *
      (cfg.width * (95 / 100) /
        measure w.text (fontSizeOf cfg maxCount minCount w.count)) <
      fontSizeOf cfg maxCount minCount w.count := by
    have := mul_lt_mul_of_pos_left hsf hpos
    simpa using this
  have hfl : ((⌊fontSizeOf cfg maxCount minCount w.count *
      (cfg.width * (95 / 100) /
        measure w.text (fontSizeOf cfg maxCount minCount w.count))⌋ : ℤ) : ℚ) ≤
      fontSizeOf cfg maxCount minCount w.count *
        (cfg.width * (95 / 100) /
          measure w.text (fontSizeOf cfg maxCount minCount w.count)) :=
    Int.floor_le _
  refine ⟨?_, hsize, hwidth⟩
  rw [hsize]
  linarith

attribute [local semireducible] Rat.add Rat.mul Rat.inv Rat.sub in
/-- Witness for C7: a fifty-character phrase overflowing a small canvas is
shrunk from interpolated size 20 to size 1 and re-measured. -/
theorem overflow_guard_witness :
    (candOf ⟨100, 100, 20, 5, 1, 1 / 2, 5, 10, 1, 120⟩
        (fun t s => s * (t.length : ℚ)) 2 1
        ⟨"aaaaaaaaaaaaaaaaaaaaaaaaaaaaaaaaaaaaaaaaaaaaaaaaaa", 2, 0, "#007947"⟩).size <
      fontSizeOf ⟨100, 100, 20, 5, 1, 1 / 2, 5, 10, 1, 120⟩ 2 1
        (⟨"aaaaaaaaaaaaaaaaaaaaaaaaaaaaaaaaaaaaaaaaaaaaaaaaaa", 2, 0,
          "#007947"⟩ : WordFrequency).count ∧
    (candOf ⟨100, 100, 20, 5, 1, 1 / 2, 5, 10, 1, 120⟩
        (fun t s => s * (t.length : ℚ)) 2 1
        ⟨"aaaaaaaaaaaaaaaaaaaaaaaaaaaaaaaaaaaaaaaaaaaaaaaaaa", 2, 0, "#007947"⟩).size =
      ((⌊fontSizeOf ⟨100, 100, 20, 5, 1, 1 / 2, 5, 10, 1, 120⟩ 2 1
          (⟨"aaaaaaaaaaaaaaaaaaaaaaaaaaaaaaaaaaaaaaaaaaaaaaaaaa", 2, 0,
            "#007947"⟩ : WordFrequency).count *
          (Config.width ⟨100, 100, 20, 5, 1, 1 / 2, 5, 10, 1, 120⟩ * (95 / 100) /
            (fun t s => s * (t.length : ℚ))
              (WordFrequency.text
                ⟨"aaaaaaaaaaaaaaaaaaaaaaaaaaaaaaaaaaaaaaaaaaaaaaaaaa", 2, 0,
                  "#007947"⟩)
              (fontSizeOf ⟨100, 100, 20, 5, 1, 1 / 2, 5, 10, 1, 120⟩ 2 1
                (⟨"aaaaaaaaaaaaaaaaaaaaaaaaaaaaaaaaaaaaaaaaaaaaaaaaaa", 2, 0,
                  "#007947"⟩ : WordFrequency).count))⌋ : ℤ) : ℚ) ∧
    (candOf ⟨100, 100, 20, 5, 1, 1 / 2, 5, 10, 1, 120⟩
        (fun t s => s * (t.length : ℚ)) 2 1
        ⟨"aaaaaaaaaaaaaaaaaaaaaaaaaaaaaaaaaaaaaaaaaaaaaaaaaa", 2, 0, "#007947"⟩).width =
      (fun t s => s * (t.length : ℚ))
        (WordFrequency.text
          ⟨"aaaaaaaaaaaaaaaaaaaaaaaaaaaaaaaaaaaaaaaaaaaaaaaaaa", 2, 0, "#007947"⟩)
        ((candOf ⟨100, 100, 20, 5, 1, 1 / 2, 5, 10, 1, 120⟩
            (fun t s => s * (t.length : ℚ)) 2 1
            ⟨"aaaaaaaaaaaaaaaaaaaaaaaaaaaaaaaaaaaaaaaaaaaaaaaaaa", 2, 0,
              "#007947"⟩).size) :=
  overflow_guard ⟨100, 100, 20, 5, 1, 1 / 2, 5, 10, 1, 120⟩
    (fun t s => s * (t.length : ℚ)) 2 1
    ⟨"aaaaaaaaaaaaaaaaaaaaaaaaaaaaaaaaaaaaaaaaaaaaaaaaaa", 2, 0, "#007947"⟩
    (by decide) (by decide) (by decide)

/-- The spiral search accepts the first iteration whose candidate position is
not rejected, provided every earlier iteration was rejected without hitting
the radius give-up. -/
theorem searchFrom_first_accept (cfg : Config) (cosQ sinQ : ℚ → ℚ)
    (placed : List PlacedWord) (cand : PlacedWord) :
    ∀ (j fuel k : ℕ), j < fuel →
      (∀ i < j, rejectedAt cfg cosQ sinQ placed cand (k + i) = true ∧
        giveUpAt cfg cosQ sinQ cand (k + i) = false) →
      rejectedAt cfg cosQ sinQ placed cand (k + j) = false →
      searchFrom cfg cosQ sinQ placed cand fuel k =
        some (posAt cfg cosQ sinQ (k + j)) := by
  intro j
  induction j with
  | zero =>
      intro fuel k hf _ hacc
      obtain ⟨n, rfl⟩ : ∃ n, fuel = n + 1 := ⟨fuel - 1, by omega⟩
      rw [Nat.add_zero] at hacc
      simp only [rejectedAt, Bool.or_eq_false_iff] at hacc
      obtain ⟨h1, h2⟩ := hacc
      simp only [searchFrom, h1, h2, Bool.false_eq_true, if_false, Nat.add_zero]
  | succ j ih =>
      intro fuel k hf hb hacc
      obtain ⟨n, rfl⟩ : ∃ n, fuel = n + 1 := ⟨fuel - 1, by omega⟩
      have h0 := hb 0 (Nat.succ_pos j)
      rw [Nat.add_zero] at h0
      obtain ⟨hrej, hgu⟩ := h0
      have hb' : ∀ i < j,
          rejectedAt cfg cosQ sinQ placed cand ((k + 1) + i) = true ∧
          giveUpAt cfg cosQ sinQ cand ((k + 1) + i) = false := by
        intro i hi
        have harith : k + (i + 1) = (k + 1) + i := by omega
        have := hb (i + 1) (by omega)
        rwa [harith] at this
      have hacc' : rejectedAt cfg cosQ sinQ placed cand ((k + 1) + j) = false := by
        have harith : k + (j + 1) = (k + 1) + j := by omega
        rwa [harith] at hacc
      have htail := ih n (k + 1) (by omega) hb' hacc'
      have harith2 : (k + 1) + j = k + (j + 1) := by omega
      rw [harith2] at htail
      simp only [rejectedAt, Bool.or_eq_true] at hrej
      by_cases hoob : outOfBounds cfg cand.width cand.height
          (posAt cfg cosQ sinQ k).1 (posAt cfg cosQ sinQ k).2 = true
      · have hrad : ¬((k : ℚ) * cfg.radiusStep > max cfg.width cfg.height) := by
          simp only [giveUpAt, hoob, Bool.true_and, decide_eq_false_iff_not] at hgu
          exact hgu
        simp only [searchFrom, hoob, if_true]
        rw [if_neg hrad]
        exact htail
      · have hoob' : outOfBounds cfg cand.width cand.height
            (posAt cfg cosQ sinQ k).1 (posAt cfg cosQ sinQ k).2 = false := by
          simpa using hoob
        have hcol : collideAny cfg.padding
            { cand with
              x := (posAt cfg cosQ sinQ k).1, y := (posAt cfg cosQ sinQ k).2 }
            placed = true := by
          rcases hrej with h | h
          · exact absurd h hoob
          · exact h
        simp only [searchFrom, hoob', Bool.false_eq_true, if_false, hcol, if_true]
        exact htail

attribute [local semireducible] Rat.add Rat.mul Rat.inv Rat.sub in
/-- Claim C3 counterexample: the rejection rule is not the one the claim
states.  At the canvas center a term as wide as the canvas passes the
boundary check of the code, which tests the unpadded box, and is accepted and
painted there by the placement search even though its padded bounding box
exits the canvas boundary, so a position whose padded box leaves the canvas
is not always rejected. -/
theorem spiral_rejection_counterexample :
    searchFrom ⟨100, 100, 10, 10, 1, 1 / 2, 5, 5, 1, 120⟩ (fun _ => 1)
        (fun _ => 0) []
        (candOf ⟨100, 100, 10, 10, 1, 1 / 2, 5, 5, 1, 120⟩ (fun _ _ => 100) 1 1
          ⟨"w", 1, 0, "#007947"⟩)
        (Config.maxIterations ⟨100, 100, 10, 10, 1, 1 / 2, 5, 5, 1, 120⟩) 0 =
      some (50, 50) ∧
    specPaddedOutOfBounds ⟨100, 100, 10, 10, 1, 1 / 2, 5, 5, 1, 120⟩
      (candOf ⟨100, 100, 10, 10, 1, 1 / 2, 5, 5, 1, 120⟩ (fun _ _ => 100) 1 1
        ⟨"w", 1, 0, "#007947"⟩).width
      (candOf ⟨100, 100, 10, 10, 1, 1 / 2, 5, 5, 1, 120⟩ (fun _ _ => 100) 1 1
        ⟨"w", 1, 0, "#007947"⟩).height 50 50 = true := by
  constructor
  · decide
  · decide

/-- Claim C3 amended: spiral rejection rule.  At every candidate position of
the placement search the position is rejected exactly when the term's
unpadded bounding box would exit the canvas boundary or when the term's
padded bounding box intersects the padded bounding box of some already placed
term, the symmetric padding applying only to the pairwise test; the first
non-rejected position within the iteration budget, reached without
triggering the radius give-up, is accepted, the term is appended to the
placed set and painted at that position. -/
theorem spiral_rejection (cfg : Config) (measure : String → ℚ → ℚ)
    (cosQ sinQ : ℚ → ℚ) (placed : List PlacedWord) (maxCount minCount : ℕ)
    (w : WordFrequency) (j : ℕ)
    (hj : j < cfg.maxIterations)
    (hbefore : ∀ i < j,
      rejectedAt cfg cosQ sinQ placed (candOf cfg measure maxCount minCount w) i
          = true ∧
      giveUpAt cfg cosQ sinQ (candOf cfg measure maxCount minCount w) i = false)
    (hacc : rejectedAt cfg cosQ sinQ placed
      (candOf cfg measure maxCount minCount w) j = false) :
    searchFrom cfg cosQ sinQ placed (candOf cfg measure maxCount minCount w)
        cfg.maxIterations 0 = some (posAt cfg cosQ sinQ j) ∧
    placeWord cfg measure cosQ sinQ maxCount minCount placed w =
      placed ++ [{ candOf cfg measure maxCount minCount w with
        x := (posAt cfg cosQ sinQ j).1, y := (posAt cfg cosQ sinQ j).2 }] := by
  have hs := searchFrom_first_accept cfg cosQ sinQ placed
    (candOf cfg measure maxCount minCount w) j cfg.maxIterations 0 hj
    (by simpa using hbefore) (by simpa using hacc)
  rw [Nat.zero_add] at hs
  refine ⟨hs, ?_⟩
  simp only [placeWord, hs]

attribute [local semireducible] Rat.add Rat.mul Rat.inv Rat.sub in
/-- Witness for the amended C3: with one term placed at the center, a second
term is rejected at spiral iterations 0, 1 and 2 and accepted at iteration 3,
where it is appended and painted. -/
theorem spiral_rejection_witness :
    searchFrom ⟨100, 100, 10, 10, 1, 1 / 2, 5, 5, 1, 120⟩ (fun _ => 1)
        (fun _ => 0) [⟨"a", 1, 10, "#007947", 10, 10, 50, 50⟩]
        (candOf ⟨100, 100, 10, 10, 1, 1 / 2, 5, 5, 1, 120⟩ (fun _ s => s) 1 1
          ⟨"b", 1, 0, "#007947"⟩)
        (Config.maxIterations ⟨100, 100, 10, 10, 1, 1 / 2, 5, 5, 1, 120⟩) 0 =
      some (posAt ⟨100, 100, 10, 10, 1, 1 / 2, 5, 5, 1, 120⟩ (fun _ => 1)
        (fun _ => 0) 3) ∧
    placeWord ⟨100, 100, 10, 10, 1, 1 / 2, 5, 5, 1, 120⟩ (fun _ s => s)
        (fun _ => 1) (fun _ => 0) 1 1 [⟨"a", 1, 10, "#007947", 10, 10, 50, 50⟩]
        ⟨"b", 1, 0, "#007947"⟩ =
      [⟨"a", 1, 10, "#007947", 10, 10, 50, 50⟩] ++
        [{ candOf ⟨100, 100, 10, 10, 1, 1 / 2, 5, 5, 1, 120⟩ (fun _ s => s) 1 1
            ⟨"b", 1, 0, "#007947"⟩ with
          x := (posAt ⟨100, 100, 10, 10, 1, 1 / 2, 5, 5, 1, 120⟩ (fun _ => 1)
            (fun _ => 0) 3).1,
          y := (posAt ⟨100, 100, 10, 10, 1, 1 / 2, 5, 5, 1, 120⟩ (fun _ => 1)
            (fun _ => 0) 3).2 }] :=
  spiral_rejection ⟨100, 100, 10, 10, 1, 1 / 2, 5, 5, 1, 120⟩ (fun _ s => s)
    (fun _ => 1) (fun _ => 0) [⟨"a", 1, 10, "#007947", 10, 10, 50, 50⟩] 1 1
    ⟨"b", 1, 0, "#007947"⟩ 3 (by decide)
    (by
      intro i hi
      interval_cases i <;> exact ⟨by decide, by decide⟩)
    (by decide)

/-- The interpolated font size is monotone in the count when the reference
counts and the font bounds are ordered. -/
theorem fontSizeOf_mono (cfg : Config) (maxCount minCount c₁ c₂ : ℕ)
    (hF : cfg.minFontSize ≤ cfg.maxFontSize) (hcc : minCount ≤ maxCount)
    (hc : c₂ ≤ c₁) :
    fontSizeOf cfg maxCount minCount c₂ ≤ fontSizeOf cfg maxCount minCount c₁ := by
  unfold fontSizeOf
  rw [Int.cast_le]
  apply Int.floor_le_floor
  apply add_le_add_left
  apply mul_le_mul_of_nonneg_right _ (sub_nonneg.2 hF)
  unfold scaleOf
  by_cases heq : maxCount = minCount
  · simp [heq]
  · rw [if_neg heq, if_neg heq]
    have hlt : minCount < maxCount := lt_of_le_of_ne hcc (Ne.symm heq)
    have hd : (0 : ℚ) < (maxCount : ℚ) - (minCount : ℚ) := by
      rw [sub_pos]
      exact_mod_cast hlt
    gcongr

/-- The candidate keeps the raw interpolated font size when the overflow
guard does not fire. -/
theorem candOf_size_no_guard (cfg : Config) (measure : String → ℚ → ℚ)
    (maxCount minCount : ℕ) (w : WordFrequency)
    (hg : ¬(cfg.width * (95 / 100) <
      measure w.text (fontSizeOf cfg maxCount minCount w.count))) :
    (candOf cfg measure maxCount minCount w).size =
      fontSizeOf cfg maxCount minCount w.count := by
  simp only [candOf, overflowAdjust]
  rw [if_neg hg]

attribute [local semireducible] Rat.add Rat.mul Rat.inv Rat.sub in
/-- Claim C8 counterexample: monotonic sizing fails on the code as stated.
In a run where the higher-count term is a long phrase, the overflow guard
shrinks its font size below the font size of a lower-count short term, so
two placed terms A and B with count A greater than count B end with
fontSize A strictly smaller than fontSize B. -/
theorem monotonic_sizing_counterexample :
    generateWordCloud ⟨100, 100, 20, 5, 1, 1 / 2, 5, 10, 1, 120⟩ (fun _ => 0)
        (fun t s => s * (t.length : ℚ)) (fun _ => 1) (fun _ => 0)
        ["aaaaaaaaaaaaaaaaaaaaaaaaaaaaaaaaaaaaaaaaaaaaaaaaaa",
         "aaaaaaaaaaaaaaaaaaaaaaaaaaaaaaaaaaaaaaaaaaaaaaaaaa", "b"] =
      some [⟨"aaaaaaaaaaaaaaaaaaaaaaaaaaaaaaaaaaaaaaaaaaaaaaaaaa", 2, 1,
              "#007947", 50, 1, 50, 50⟩,
            ⟨"b", 1, 5, "#007947", 5, 5, 80, 50⟩] ∧
    (⟨"aaaaaaaaaaaaaaaaaaaaaaaaaaaaaaaaaaaaaaaaaaaaaaaaaa", 2, 1, "#007947",
        50, 1, 50, 50⟩ : PlacedWord).count >
      (⟨"b", 1, 5, "#007947", 5, 5, 80, 50⟩ : PlacedWord).count ∧
    (⟨"aaaaaaaaaaaaaaaaaaaaaaaaaaaaaaaaaaaaaaaaaaaaaaaaaa", 2, 1, "#007947",
        50, 1, 50, 50⟩ : PlacedWord).size <
      (⟨"b", 1, 5, "#007947", 5, 5, 80, 50⟩ : PlacedWord).size := by
  refine ⟨by decide, by decide, by decide⟩

/-- Claim C8 amended: monotonic sizing holds for the interpolated sizes.  For
two terms A and B placed by the same generation call, if count A exceeds
count B and the overflow guard fired for neither term, then fontSize A is at
least fontSize B; the counterexample shows the guard can break monotonicity
of the final sizes. -/
theorem monotonic_sizing (cfg : Config) (pick : ℕ → ℕ)
    (measure : String → ℚ → ℚ) (cosQ sinQ : ℚ → ℚ) (entries : List String)
    (maxCount minCount : ℕ) (placed : List PlacedWord)
    (hF : cfg.minFontSize ≤ cfg.maxFontSize)
    (hmaxC : maxCount = orOne
      (((processPhrases pick cfg.cap entries).head?.map
          WordFrequency.count).getD 0))
    (hminC : minCount = orOne
      (((processPhrases pick cfg.cap entries).getLast?.map
          WordFrequency.count).getD 0))
    (h : generateWordCloud cfg pick measure cosQ sinQ entries = some placed)
    (a b : PlacedWord) (ha : a ∈ placed) (hb : b ∈ placed)
    (hcount : b.count < a.count)
    (hga : ¬(cfg.width * (95 / 100) <
      measure a.text (fontSizeOf cfg maxCount minCount a.count)))
    (hgb : ¬(cfg.width * (95 / 100) <
      measure b.text (fontSizeOf cfg maxCount minCount b.count))) :
    b.size ≤ a.size := by
  obtain ⟨w0, rest, hw, hp⟩ :=
    generate_some cfg pick measure cosQ sinQ entries placed h
  rw [hw] at hmaxC hminC
  simp only [List.head?_cons, Option.map_some', Option.getD_some] at hmaxC
  have hcp : ∀ w ∈ w0 :: rest, 1 ≤ w.count := by
    rw [← hw]
    exact processPhrases_count_pos pick cfg.cap entries
  have hs : List.Pairwise (fun a b => b.count ≤ a.count) (w0 :: rest) := by
    rw [← hw]
    exact processPhrases_sorted pick cfg.cap entries
  have hne : w0 :: rest ≠ [] := by simp
  have hy : (w0 :: rest).getLast? = some ((w0 :: rest).getLast hne) :=
    List.getLast?_eq_getLast _ hne
  have hymem : (w0 :: rest).getLast hne ∈ w0 :: rest := List.getLast_mem hne
  have hminC2 : minCount = ((w0 :: rest).getLast hne).count := by
    rw [hminC, hy]
    have h1 : 1 ≤ ((w0 :: rest).getLast hne).count := hcp _ hymem
    have h0 : ((w0 :: rest).getLast hne).count ≠ 0 := by omega
    simp [orOne, h0]
  have hmaxC2 : maxCount = w0.count := by
    have h1 : 1 ≤ w0.count := hcp w0 (List.mem_cons_self _ _)
    have h0 : w0.count ≠ 0 := by omega
    rw [hmaxC]
    simp [orOne, h0]
  have hcc : minCount ≤ maxCount := by
    rw [hminC2, hmaxC2]
    exact sorted_getLast?_min (w0 :: rest) hs _ hy w0 (List.mem_cons_self _ _)
  rw [hmaxC.symm, hminC.symm] at hp
  have hfrom := mem_foldl_placeWord cfg measure cosQ sinQ maxCount minCount
    (w0 :: rest) []
  have hafrom := hfrom a (hp ▸ ha)
  have hbfrom := hfrom b (hp ▸ hb)
  rcases hafrom with hfalse | ⟨wa, _, pa, hpa⟩
  · simp at hfalse
  rcases hbfrom with hfalse | ⟨wb, _, pb, hpb⟩
  · simp at hfalse
  have hatext : a.text = wa.text := by rw [hpa]; rfl
  have hacount : a.count = wa.count := by rw [hpa]; rfl
  have hasize : a.size = (candOf cfg measure maxCount minCount wa).size := by
    rw [hpa]
  have hbtext : b.text = wb.text := by rw [hpb]; rfl
  have hbcount : b.count = wb.count := by rw [hpb]; rfl
  have hbsize : b.size = (candOf cfg measure maxCount minCount wb).size := by
    rw [hpb]
  rw [hatext, hacount] at hga
  rw [hbtext, hbcount] at hgb
  rw [hasize, hbsize, candOf_size_no_guard cfg measure maxCount minCount wa hga,
    candOf_size_no_guard cfg measure maxCount minCount wb hgb]
  apply fontSizeOf_mono cfg maxCount minCount wa.count wb.count hF hcc
  rw [hacount, hbcount] at hcount
  exact le_of_lt hcount

attribute [local semireducible] Rat.add Rat.mul Rat.inv Rat.sub in
/-- Witness for the amended C8 on a concrete phrase-mode run where neither
placed term triggers the overflow guard. -/
theorem monotonic_sizing_witness :
    (⟨"b", 1, 80, "#007947", 10, 88, 1660, 900⟩ : PlacedWord).size ≤
      (⟨"a", 2, 550, "#007947", 10, 605, 1600, 900⟩ : PlacedWord).size :=
  monotonic_sizing cfgPhrase (fun _ => 0) (fun _ _ => 10) (fun _ => 1)
    (fun _ => 0) ["a", "a", "b"] 2 1
    [⟨"a", 2, 550, "#007947", 10, 605, 1600, 900⟩,
     ⟨"b", 1, 80, "#007947", 10, 88, 1660, 900⟩]
    (by decide) (by decide) (by decide) (by decide)
    ⟨"a", 2, 550, "#007947", 10, 605, 1600, 900⟩
    ⟨"b", 1, 80, "#007947", 10, 88, 1660, 900⟩
    (by decide) (by decide) (by decide) (by decide) (by decide)

/-- A candidate wider or taller than the canvas is out of bounds at every
position. -/
theorem outOfBounds_true_of_oversize {cfg : Config} {width height : ℚ}
    (h : cfg.width < width ∨ cfg.height < height) :
    ∀ x y : ℚ, outOfBounds cfg width height x y = true := by
  intro x y
  by_contra hfalse
  have hf : outOfBounds cfg width height x y = false := by
    simpa using hfalse
  obtain ⟨h1, h2, h3, h4⟩ := outOfBounds_false_iff.1 hf
  rcases h with h | h <;> linarith

/-- The spiral search never places a candidate wider or taller than the
canvas. -/
theorem searchFrom_none_of_oversize (cfg : Config) (cosQ sinQ : ℚ → ℚ)
    (placed : List PlacedWord) (cand : PlacedWord)
    (h : cfg.width < cand.width ∨ cfg.height < cand.height) :
    ∀ fuel k, searchFrom cfg cosQ sinQ placed cand fuel k = none := by
  intro fuel
  induction fuel with
  | zero => intro k; rfl
  | succ n ih =>
      intro k
      have hoob := outOfBounds_true_of_oversize h (posAt cfg cosQ sinQ k).1
        (posAt cfg cosQ sinQ k).2
      simp only [searchFrom, hoob, if_true]
      split
      · rfl
      · exact ih (k + 1)

/-- A word whose measured candidate exceeds the canvas is skipped. -/
theorem placeWord_of_oversize (cfg : Config) (measure : String → ℚ → ℚ)
    (cosQ sinQ : ℚ → ℚ) (maxCount minCount : ℕ) (placed : List PlacedWord)
    (w : WordFrequency)
    (h : cfg.width < (candOf cfg measure maxCount minCount w).width ∨
      cfg.height < (candOf cfg measure maxCount minCount w).height) :
    placeWord cfg measure cosQ sinQ maxCount minCount placed w = placed := by
  simp only [placeWord,
    searchFrom_none_of_oversize cfg cosQ sinQ placed _ h cfg.maxIterations 0]

/-- A run of oversize words leaves the placed set empty. -/
theorem foldl_placeWord_nil_of_oversize (cfg : Config)
    (measure : String → ℚ → ℚ) (cosQ sinQ : ℚ → ℚ) (maxCount minCount : ℕ) :
    ∀ pre : List WordFrequency,
      (∀ v ∈ pre,
        cfg.width < (candOf cfg measure maxCount minCount v).width ∨
        cfg.height < (candOf cfg measure maxCount minCount v).height) →
      pre.foldl (placeWord cfg measure cosQ sinQ maxCount minCount) [] = [] := by
  intro pre
  induction pre with
  | nil => intro _; rfl
  | cons v vs ih =>
      intro hall
      rw [List.foldl_cons,
        placeWord_of_oversize cfg measure cosQ sinQ maxCount minCount [] v
          (hall v (List.mem_cons_self _ _))]
      exact ih (fun x hx => hall x (List.mem_cons_of_mem _ hx))

/-- With an empty placed set, a candidate that fits the canvas at the center
is accepted at spiral iteration 0, whose position is exactly the canvas
center. -/
theorem searchFrom_center_accept (cfg : Config) (cosQ sinQ : ℚ → ℚ)
    (cand : PlacedWord)
    (hfit : outOfBounds cfg cand.width cand.height (cfg.width / 2)
      (cfg.height / 2) = false) (n : ℕ) :
    searchFrom cfg cosQ sinQ [] cand (n + 1) 0 =
      some (cfg.width / 2, cfg.height / 2) := by
  have hpos : posAt cfg cosQ sinQ 0 = (cfg.width / 2, cfg.height / 2) := by
    simp [posAt]
  simp only [searchFrom, hpos, hfit, Bool.false_eq_true, if_false, collideAny,
    List.any_nil]

/-- Once the placed set is nonempty its first element never changes. -/
theorem foldl_placeWord_head (cfg : Config) (measure : String → ℚ → ℚ)
    (cosQ sinQ : ℚ → ℚ) (maxCount minCount : ℕ) :
    ∀ (ws : List WordFrequency) (placed : List PlacedWord), placed ≠ [] →
      (ws.foldl (placeWord cfg measure cosQ sinQ maxCount minCount)
        placed).head? = placed.head? := by
  intro ws
  induction ws with
  | nil => intro placed _; rfl
  | cons w ws ih =>
      intro placed h
      rw [List.foldl_cons]
      rcases placeWord_eq cfg measure cosQ sinQ maxCount minCount placed w with
        ⟨he, _⟩ | ⟨p, _, he⟩
      · rw [he]
        exact ih placed h
      · rw [he]
        have hne : placed ++ [{ candOf cfg measure maxCount minCount w with
            x := p.1, y := p.2 }] ≠ [] := by simp
        rw [ih _ hne, List.head?_append]
        cases placed with
        | nil => exact absurd rfl h
        | cons a t => rfl

/-- Claim C10: for every nonempty term set, the first term in rank order
whose measured bounding box fits inside the canvas at the center is placed at
exactly the canvas center, because the spiral starts at radius 0, terms whose
boxes cannot fit at the center fit nowhere and are skipped, and therefore the
placed set is still empty when that term is attempted. -/
theorem first_fitting_term_centered (cfg : Config) (pick : ℕ → ℕ)
    (measure : String → ℚ → ℚ) (cosQ sinQ : ℚ → ℚ) (entries : List String)
    (w0 : WordFrequency) (rest : List WordFrequency)
    (pre post : List WordFrequency) (w : WordFrequency) (maxCount minCount : ℕ)
    (hwords : processPhrases pick cfg.cap entries = w0 :: rest)
    (hsplit : w0 :: rest = pre ++ w :: post)
    (hmaxC : maxCount = orOne w0.count)
    (hminC : minCount =
      orOne (((w0 :: rest).getLast?.map WordFrequency.count).getD 0))
    (hiter : 1 ≤ cfg.maxIterations)
    (hunfit : ∀ v ∈ pre,
      cfg.width < (candOf cfg measure maxCount minCount v).width ∨
      cfg.height < (candOf cfg measure maxCount minCount v).height)
    (hfit : outOfBounds cfg (candOf cfg measure maxCount minCount w).width
      (candOf cfg measure maxCount minCount w).height
      (cfg.width / 2) (cfg.height / 2) = false) :
    ∃ placed,
      generateWordCloud cfg pick measure cosQ sinQ entries = some placed ∧
      placed.head? = some (candOf cfg measure maxCount minCount w) := by
  obtain ⟨n, hn⟩ : ∃ n, cfg.maxIterations = n + 1 :=
    ⟨cfg.maxIterations - 1, by omega⟩
  refine ⟨(w0 :: rest).foldl
    (placeWord cfg measure cosQ sinQ maxCount minCount) [], ?_, ?_⟩
  · simp only [generateWordCloud, hwords]
    rw [← hmaxC, ← hminC]
  · rw [hsplit, List.foldl_append,
      foldl_placeWord_nil_of_oversize cfg measure cosQ sinQ maxCount minCount
        pre hunfit,
      List.foldl_cons]
    have hsearch : searchFrom cfg cosQ sinQ []
        (candOf cfg measure maxCount minCount w) cfg.maxIterations 0 =
        some (cfg.width / 2, cfg.height / 2) := by
      rw [hn]
      exact searchFrom_center_accept cfg cosQ sinQ _ hfit n
    have hplace : placeWord cfg measure cosQ sinQ maxCount minCount [] w =
        [candOf cfg measure maxCount minCount w] := by
      simp only [placeWord, hsearch, List.nil_append]
      rfl
    rw [hplace,
      foldl_placeWord_head cfg measure cosQ sinQ maxCount minCount post _
        (by simp)]
    rfl

attribute [local semireducible] Rat.add Rat.mul Rat.inv Rat.sub in
/-- Witness for C10: a single-term run places the term at the center of the
phrase-mode canvas. -/
theorem first_fitting_term_centered_witness :
    ∃ placed,
      generateWordCloud cfgPhrase (fun _ => 0) (fun _ _ => 10) (fun _ => 1)
        (fun _ => 0) ["a"] = some placed ∧
      placed.head? = some (candOf cfgPhrase (fun _ _ => 10) 1 1
        ⟨"a", 1, 0, "#007947"⟩) :=
  first_fitting_term_centered cfgPhrase (fun _ => 0) (fun _ _ => 10)
    (fun _ => 1) (fun _ => 0) ["a"] ⟨"a", 1, 0, "#007947"⟩ [] [] []
    ⟨"a", 1, 0, "#007947"⟩ 1 1 (by decide) (by decide) (by decide) (by decide)
    (by decide) (by decide) (by decide)

/-! ### Color-independence lemmas -/

/-- The colored map step yields agreeing lists for any two draw streams and
start indices. -/
theorem attachColors_agree (pick₁ pick₂ : ℕ → ℕ) :
    ∀ (i j : ℕ) (ps : List (String × ℕ)),
      List.Forall₂ wfAgree (attachColors pick₁ i ps)
        (attachColors pick₂ j ps) := by
  intro i j ps
  induction ps generalizing i j with
  | nil => exact List.Forall₂.nil
  | cons p ps ih =>
      simp only [attachColors]
      exact List.Forall₂.cons rfl (ih (i + 1) (j + 1))

/-- The stable insertion preserves agreement modulo color. -/
theorem insertDesc_agree : ∀ {w₁ w₂ : WordFrequency}
    {l₁ l₂ : List WordFrequency}, wfAgree w₁ w₂ →
    List.Forall₂ wfAgree l₁ l₂ →
    List.Forall₂ wfAgree (insertDesc w₁ l₁) (insertDesc w₂ l₂) := by
  intro w₁ w₂ l₁ l₂ hw hl
  induction hl with
  | nil => exact List.Forall₂.cons hw List.Forall₂.nil
  | cons hx hxs ih =>
      rename_i x₁ x₂ t₁ t₂
      simp only [insertDesc]
      have hcx : x₁.count = x₂.count := congrArg WfCore.count hx
      have hcw : w₁.count = w₂.count := congrArg WfCore.count hw
      by_cases hc : x₁.count ≤ w₁.count
      · rw [if_pos hc, if_pos (by rw [← hcx, ← hcw]; exact hc)]
        exact List.Forall₂.cons hw (List.Forall₂.cons hx hxs)
      · rw [if_neg hc, if_neg (by rw [← hcx, ← hcw]; exact hc)]
        exact List.Forall₂.cons hx ih

/-- The stable sort preserves agreement modulo color. -/
theorem sortByCountDesc_agree {l₁ l₂ : List WordFrequency}
    (h : List.Forall₂ wfAgree l₁ l₂) :
    List.Forall₂ wfAgree (sortByCountDesc l₁) (sortByCountDesc l₂) := by
  induction h with
  | nil => exact List.Forall₂.nil
  | cons hx hxs ih =>
      simp only [sortByCountDesc, List.foldr_cons] at *
      exact insertDesc_agree hx ih

/-- Truncation preserves agreement modulo color. -/
theorem take_agree : ∀ {l₁ l₂ : List WordFrequency},
    List.Forall₂ wfAgree l₁ l₂ →
    ∀ n, List.Forall₂ wfAgree (l₁.take n) (l₂.take n) := by
  intro l₁ l₂ h
  induction h with
  | nil => intro n; simp
  | cons hx hxs ih =>
      intro n
      cases n with
      | zero => exact List.Forall₂.nil
      | succ m =>
          simp only [List.take_succ_cons]
          exact List.Forall₂.cons hx (ih m)

/-- The whole aggregation path agrees modulo color for any two draw
streams. -/
theorem processPhrases_agree (pick₁ pick₂ : ℕ → ℕ) (cap : ℕ)
    (entries : List String) :
    List.Forall₂ wfAgree (processPhrases pick₁ cap entries)
      (processPhrases pick₂ cap entries) :=
  take_agree
    (sortByCountDesc_agree
      (attachColors_agree pick₁ pick₂ 0 0 (countEntries entries))) cap

/-- Building the measured candidate preserves agreement modulo color. -/
theorem candOf_agree (cfg : Config) (measure : String → ℚ → ℚ)
    (maxCount minCount : ℕ) {w₁ w₂ : WordFrequency} (h : wfAgree w₁ w₂) :
    pwAgree (candOf cfg measure maxCount minCount w₁)
      (candOf cfg measure maxCount minCount w₂) := by
  have ht : w₁.text = w₂.text := congrArg WfCore.text h
  have hc : w₁.count = w₂.count := congrArg WfCore.count h
  unfold pwAgree placedCore candOf
  simp only [ht, hc]

/-- The intersection test reads only layout fields, never the color. -/
theorem intersect_agree {p : ℚ} {a₁ a₂ b₁ b₂ : PlacedWord}
    (ha : pwAgree a₁ a₂) (hb : pwAgree b₁ b₂) :
    intersect p a₁ b₁ = intersect p a₂ b₂ := by
  have hax : a₁.x = a₂.x := congrArg PlacedCore.x ha
  have hay : a₁.y = a₂.y := congrArg PlacedCore.y ha
  have haw : a₁.width = a₂.width := congrArg PlacedCore.width ha
  have hah : a₁.height = a₂.height := congrArg PlacedCore.height ha
  have hbx : b₁.x = b₂.x := congrArg PlacedCore.x hb
  have hby : b₁.y = b₂.y := congrArg PlacedCore.y hb
  have hbw : b₁.width = b₂.width := congrArg PlacedCore.width hb
  have hbh : b₁.height = b₂.height := congrArg PlacedCore.height hb
  simp only [intersect, hax, hay, haw, hah, hbx, hby, hbw, hbh]

/-- Moving two agreeing candidates to the same position keeps them
agreeing. -/
theorem setPos_agree {c₁ c₂ : PlacedWord} (h : pwAgree c₁ c₂) (x y : ℚ) :
    pwAgree { c₁ with x := x, y := y } { c₂ with x := x, y := y } := by
  have ht : c₁.text = c₂.text := congrArg PlacedCore.text h
  have hc : c₁.count = c₂.count := congrArg PlacedCore.count h
  have hs : c₁.size = c₂.size := congrArg PlacedCore.size h
  have hw : c₁.width = c₂.width := congrArg PlacedCore.width h
  have hh : c₁.height = c₂.height := congrArg PlacedCore.height h
  unfold pwAgree placedCore
  simp only [ht, hc, hs, hw, hh]

/-- The collision scan reads only layout fields of the placed words. -/
theorem collideAny_agree {p : ℚ} {c₁ c₂ : PlacedWord} (hc : pwAgree c₁ c₂) :
    ∀ {l₁ l₂ : List PlacedWord}, List.Forall₂ pwAgree l₁ l₂ →
      collideAny p c₁ l₁ = collideAny p c₂ l₂ := by
  intro l₁ l₂ h
  induction h with
  | nil => rfl
  | cons hx hxs ih =>
      rename_i x₁ x₂ t₁ t₂
      simp only [collideAny, List.any_cons]
      rw [intersect_agree hc hx,
        show (t₁.any fun o => intersect p c₁ o) =
          (t₂.any fun o => intersect p c₂ o) from ih]

/-- The spiral search returns the same result on agreeing inputs: the color
never influences a placement decision. -/
theorem searchFrom_agree (cfg : Config) (cosQ sinQ : ℚ → ℚ)
    {l₁ l₂ : List PlacedWord} (hl : List.Forall₂ pwAgree l₁ l₂)
    {c₁ c₂ : PlacedWord} (hc : pwAgree c₁ c₂) :
    ∀ fuel k, searchFrom cfg cosQ sinQ l₁ c₁ fuel k =
      searchFrom cfg cosQ sinQ l₂ c₂ fuel k := by
  intro fuel
  induction fuel with
  | zero => intro k; rfl
  | succ n ih =>
      intro k
      have hw : c₁.width = c₂.width := congrArg PlacedCore.width hc
      have hh : c₁.height = c₂.height := congrArg PlacedCore.height hc
      simp only [searchFrom]
      rw [collideAny_agree (setPos_agree hc (posAt cfg cosQ sinQ k).1
          (posAt cfg cosQ sinQ k).2) hl, hw, hh, ih (k + 1)]

/-- One placement step preserves agreement modulo color. -/
theorem placeWord_agree (cfg : Config) (measure : String → ℚ → ℚ)
    (cosQ sinQ : ℚ → ℚ) (maxCount minCount : ℕ)
    {l₁ l₂ : List PlacedWord} (hl : List.Forall₂ pwAgree l₁ l₂)
    {w₁ w₂ : WordFrequency} (hw : wfAgree w₁ w₂) :
    List.Forall₂ pwAgree
      (placeWord cfg measure cosQ sinQ maxCount minCount l₁ w₁)
      (placeWord cfg measure cosQ sinQ maxCount minCount l₂ w₂) := by
  have hc := candOf_agree cfg measure maxCount minCount hw
  have hsearch := searchFrom_agree cfg cosQ sinQ hl hc cfg.maxIterations 0
  rcases hres : searchFrom cfg cosQ sinQ l₁
      (candOf cfg measure maxCount minCount w₁) cfg.maxIterations 0 with _ | p
  · have hres₂ : searchFrom cfg cosQ sinQ l₂
        (candOf cfg measure maxCount minCount w₂) cfg.maxIterations 0 = none := by
      rw [← hsearch]
      exact hres
    simp only [placeWord, hres, hres₂]
    exact hl
  · have hres₂ : searchFrom cfg cosQ sinQ l₂
        (candOf cfg measure maxCount minCount w₂) cfg.maxIterations 0 =
        some p := by
      rw [← hsearch]
      exact hres
    simp only [placeWord, hres, hres₂]
    exact List.rel_append hl
      (List.Forall₂.cons (setPos_agree hc p.1 p.2) List.Forall₂.nil)

/-- The whole layout fold preserves agreement modulo color. -/
theorem foldl_placeWord_agree (cfg : Config) (measure : String → ℚ → ℚ)
    (cosQ sinQ : ℚ → ℚ) (maxCount minCount : ℕ) :
    ∀ {ws₁ ws₂ : List WordFrequency}, List.Forall₂ wfAgree ws₁ ws₂ →
    ∀ {l₁ l₂ : List PlacedWord}, List.Forall₂ pwAgree l₁ l₂ →
    List.Forall₂ pwAgree
      (ws₁.foldl (placeWord cfg measure cosQ sinQ maxCount minCount) l₁)
      (ws₂.foldl (placeWord cfg measure cosQ sinQ maxCount minCount) l₂) := by
  intro ws₁ ws₂ h
  induction h with
  | nil => intro l₁ l₂ hl; simpa using hl
  | cons hx hxs ih =>
      intro l₁ l₂ hl
      simp only [List.foldl_cons]
      exact ih (placeWord_agree cfg measure cosQ sinQ maxCount minCount hl hx)

/-- The trailing count used for the interpolation agrees modulo color. -/
theorem getLast_count_agree : ∀ {l₁ l₂ : List WordFrequency},
    List.Forall₂ wfAgree l₁ l₂ →
    (l₁.getLast?.map WordFrequency.count).getD 0 =
      (l₂.getLast?.map WordFrequency.count).getD 0 := by
  intro l₁ l₂ h
  induction h with
  | nil => rfl
  | cons hx hxs ih =>
      rename_i x₁ x₂ t₁ t₂
      cases hxs with
      | nil =>
          simp only [List.getLast?_singleton, Option.map_some',
            Option.getD_some]
          exact congrArg WfCore.count hx
      | cons hy hys =>
          rw [List.getLast?_cons_cons, List.getLast?_cons_cons]
          exact ih

/-- Agreement modulo color is exactly equality of the color-free images. -/
theorem forall₂_map_wfCore : ∀ {l₁ l₂ : List WordFrequency},
    List.Forall₂ wfAgree l₁ l₂ → l₁.map wfCore = l₂.map wfCore := by
  intro l₁ l₂ h
  induction h with
  | nil => rfl
  | cons hx hxs ih =>
      rename_i x₁ x₂ t₁ t₂
      simp only [List.map_cons, ih]
      rw [show wfCore x₁ = wfCore x₂ from hx]

/-- Agreement modulo color of placed words is equality of the color-free
images. -/
theorem forall₂_map_placedCore : ∀ {l₁ l₂ : List PlacedWord},
    List.Forall₂ pwAgree l₁ l₂ → l₁.map placedCore = l₂.map placedCore := by
  intro l₁ l₂ h
  induction h with
  | nil => rfl
  | cons hx hxs ih =>
      rename_i x₁ x₂ t₁ t₂
      simp only [List.map_cons, ih]
      rw [show placedCore x₁ = placedCore x₂ from hx]

/-- Claim C9: determinism modulo color. For a fixed input sequence,
configuration and measurement, two generation runs differing only in the
pseudo-random color draws produce identical term lists and identical placed
sets once the cosmetic color is erased: ranks, counts, font sizes, widths,
heights and positions all coincide, so the color draw never influences any
placement, sizing or collision decision. -/
theorem determinism_modulo_color (cfg : Config) (pick₁ pick₂ : ℕ → ℕ)
    (measure : String → ℚ → ℚ) (cosQ sinQ : ℚ → ℚ) (entries : List String) :
    (processPhrases pick₁ cfg.cap entries).map wfCore =
      (processPhrases pick₂ cfg.cap entries).map wfCore ∧
    (generateWordCloud cfg pick₁ measure cosQ sinQ entries).map
        (List.map placedCore) =
      (generateWordCloud cfg pick₂ measure cosQ sinQ entries).map
        (List.map placedCore) := by
  have hagree := processPhrases_agree pick₁ pick₂ cfg.cap entries
  refine ⟨forall₂_map_wfCore hagree, ?_⟩
  rcases h₁ : processPhrases pick₁ cfg.cap entries with _ | ⟨w0₁, rest₁⟩
  · rcases h₂ : processPhrases pick₂ cfg.cap entries with _ | ⟨w0₂, rest₂⟩
    · simp only [generateWordCloud, h₁, h₂]
    · rw [h₁, h₂] at hagree
      cases hagree
  · rcases h₂ : processPhrases pick₂ cfg.cap entries with _ | ⟨w0₂, rest₂⟩
    · rw [h₁, h₂] at hagree
      cases hagree
    · rw [h₁, h₂] at hagree
      have hcons := hagree
      rw [List.forall₂_cons] at hcons
      obtain ⟨hw0, _⟩ := hcons
      have hcount : w0₁.count = w0₂.count := congrArg WfCore.count hw0
      have hlast : ((w0₁ :: rest₁).getLast?.map WordFrequency.count).getD 0 =
          ((w0₂ :: rest₂).getLast?.map WordFrequency.count).getD 0 :=
        getLast_count_agree hagree
      simp only [generateWordCloud, h₁, h₂, Option.map_some']
      congr 1
      apply forall₂_map_placedCore
      rw [hcount, hlast]
      exact foldl_placeWord_agree cfg measure cosQ sinQ _ _ hagree
        List.Forall₂.nil

end WordCloud
